import Mathlib

/-!
# Verification of the NaturalCities_Mexico core algorithms

Shallow embedding of the two core procedures of the repository:

* `StatisticalAnalysis_PowerLaw` (src/script/StatisticAnalysis.py, lines 48-88;
  duplicated verbatim in src/script/RegionalAnalysis.py, lines 62-102): the
  power-law fit / bootstrap hypothesis-test driver.  The external `powerlaw`
  library and numpy's random generator are modelled as deterministic oracles
  (`StatOracle`): the script treats them as black boxes, and every claim about
  the script holds for every behaviour of those oracles.

* `CCA_by_ConvexEnvelopIntersections` (src/script/DataProcessing.py,
  lines 28-70): the City Clustering Algorithm by Convex Envelope
  Intersections.  The geometric kernel (convex hulls, union decomposition,
  point-in-polygon) is modelled from the spec over exact integer planar
  coordinates; the orchestration (spatial left join on centroids, dissolve by
  component id, left merge of the aggregated sums back onto the components)
  is translated from the script.
-/

namespace NaturalCities

/-! ## Statistical analysis (StatisticAnalysis.py lines 48-88) -/

/-- Result of `powerlaw.Fit` as consumed by the script: the estimated lower
cutoff `xmin`, the maximum-likelihood exponent `alpha`, its standard error
`sigma`, and the Kolmogorov-Smirnov distance `D` of the fit. -/
structure PLFit where
  xmin : ℤ
  alpha : ℚ
  sigma : ℚ
  D : ℚ
deriving DecidableEq

/-- The dictionary returned by `StatisticalAnalysis_PowerLaw` (line 88),
as a fixed-shape record. -/
structure PLResults where
  xmin : ℤ
  alpha : ℚ
  sigma : ℚ
  ks_distance : ℚ
  p_value : ℚ
  test_iterations : ℕ
  p_lognormal : ℚ
  r_lognormal : ℚ
deriving DecidableEq

/-- The untyped runtime errors the script can raise:
`zeroDivision` from `p / it` at line 84 when `it = 0`, and `valueError` from
`np.random.randint(0, n_1, (n_1))` at line 79 when `n_1 = 0`
(numpy rejects `low >= high` even when zero draws are requested). -/
inductive PyError where
  | zeroDivision
  | valueError
deriving DecidableEq

/-- Modelled from the spec: the external collaborators of the script, as
deterministic oracles.  `fit` stands for `powerlaw.Fit` (a deterministic
function of the data); `gen j n` stands for the `j`-th iteration's
`fit.power_law.generate_random(n)`; `idx j i` is the `i`-th raw draw of the
`j`-th iteration's `np.random.randint` stream; `compareLognormal` stands for
`fit.distribution_compare('power_law', 'lognormal')`, returning `(r, p)`. -/
structure StatOracle where
  fit : List ℤ → PLFit
  gen : ℕ → ℕ → List ℤ
  idx : ℕ → ℕ → ℕ
  compareLognormal : List ℤ → ℚ × ℚ

instance {ε α : Type} [DecidableEq ε] [DecidableEq α] :
    DecidableEq (Except ε α) := fun a b =>
  match a, b with
  | .error e, .error e' =>
      if h : e = e' then .isTrue (by rw [h]) else .isFalse (by simp [h])
  | .error _, .ok _ => .isFalse (by simp)
  | .ok _, .error _ => .isFalse (by simp)
  | .ok x, .ok y =>
      if h : x = y then .isTrue (by rw [h]) else .isFalse (by simp [h])

/-- Modelled from the spec: `np.random.randint(low, high, (size,))`.
numpy validates `low < high` before looking at the requested size and raises
`ValueError` otherwise; on success it returns `size` values in `[low, high)`,
here produced from the raw draw stream by reduction into the range. -/
def npRandint (low high size : ℕ) (draw : ℕ → ℕ) : Except PyError (List ℕ) :=
  if low < high then
    .ok ((List.range size).map (fun i => low + draw i % (high - low)))
  else
    .error .valueError

/-- One iteration of the bootstrap loop (lines 77-83): draw `n_1` random
indices into the below-`xmin` tail, resample the tail, concatenate with the
synthetic power-law sample, refit, and bump the counter when the synthetic
fit's KS distance strictly exceeds the empirical one. -/
def bootstrapIter (o : StatOracle) (ks : ℚ) (tail : List ℤ) (n2 : ℕ)
    (p : ℕ) (j : ℕ) : Except PyError ℕ :=
  match npRandint 0 tail.length tail.length (o.idx j) with
  | .error e => .error e
  | .ok indices =>
      let simulated_tail := indices.map (fun i => tail.getD i 0)
      let simulated_data := simulated_tail ++ o.gen j n2
      let fit_simulated := o.fit simulated_data
      .ok (if ks < fit_simulated.D then p + 1 else p)

/-- The bootstrap loop `for j in range(it)` accumulating the counter `p`:
`bootstrapCount o ks tail n2 it` runs iterations `0, …, it - 1` in order,
stopping at the first iteration that raises. -/
def bootstrapCount (o : StatOracle) (ks : ℚ) (tail : List ℤ) (n2 : ℕ) :
    ℕ → Except PyError ℕ
  | 0 => .ok 0
  | n + 1 =>
      match bootstrapCount o ks tail n2 n with
      | .error e => .error e
      | .ok p => bootstrapIter o ks tail n2 p n

/-- `StatisticalAnalysis_PowerLaw(data, it, test)` (lines 48-88), with the
size sample `df = data[variable]` passed directly.  Mirrors the script:
fit the sample, take the below-`xmin` tail, run the bootstrap loop when
`test` is set, then compute `p_value = p / it` (a `ZeroDivisionError` when
`it = 0`), compare against the lognormal, and build the result record with
the documented `alpha - 1` offset. -/
def StatisticalAnalysis_PowerLaw (o : StatOracle) (df : List ℤ) (it : ℕ)
    (test : Bool) : Except PyError PLResults :=
  let fit := o.fit df
  let ks_distance := fit.D
  let tail := df.filter (fun x => decide (x < fit.xmin))
  let n1 := tail.length
  let n2 := df.length - n1
  match (if test then bootstrapCount o ks_distance tail n2 it else .ok 0) with
  | .error e => .error e
  | .ok p =>
      if it = 0 then .error .zeroDivision
      else
        let p_value : ℚ := (p : ℚ) / (it : ℚ)
        let rl := o.compareLognormal df
        .ok { xmin := fit.xmin, alpha := fit.alpha - 1, sigma := fit.sigma,
              ks_distance := ks_distance, p_value := p_value,
              test_iterations := it,
              p_lognormal := rl.2, r_lognormal := rl.1 }

/-- The `j`-th synthetic sample of the bootstrap loop, as a pure function
(defined whenever the below-`xmin` tail is nonempty, so that the `randint`
guard passes): the resampled tail followed by the synthetic power-law part. -/
def simulatedData (o : StatOracle) (df : List ℤ) (j : ℕ) : List ℤ :=
  let fit := o.fit df
  let tail := df.filter (fun x => decide (x < fit.xmin))
  let n2 := df.length - tail.length
  (List.range tail.length).map (fun i => tail.getD (o.idx j i % tail.length) 0)
    ++ o.gen j n2

/-- The number of bootstrap iterations among the first `it` in which the
synthetic sample's refitted KS distance strictly exceeds the empirical
fit's KS distance. -/
def worseCount (o : StatOracle) (df : List ℤ) (it : ℕ) : ℕ :=
  ((List.range it).filter
    (fun j => decide ((o.fit df).D < (o.fit (simulatedData o df j)).D))).length

/-! ### PowerLawFitter error conditions -/

/-- The typed fitting errors of the spec's error taxonomy (§7). -/
inductive FitError where
  | insufficientData
  | invalidDomain
deriving DecidableEq

/-- Modelled from the spec: the power-law fitting routine itself lives in the
external `powerlaw` library, not under src; per spec §4.3 it rejects a sample
with fewer than 2 distinct values (including all-equal samples) with
`InsufficientData` and an all-non-positive sample with `InvalidDomain`, and
otherwise performs the xmin search and maximum-likelihood estimation, which
is abstracted here as the parameter `est`. -/
def PowerLawFitter_fit (est : List ℤ → PLFit) (sample : List ℤ) :
    Except FitError PLFit :=
  if sample.dedup.length < 2 then .error .insufficientData
  else if sample.all (fun x => decide (x ≤ 0)) then .error .invalidDomain
  else .ok (est sample)

/-! ### Theorems about the statistical analysis -/

/-- A concrete oracle whose fit puts `xmin` at the sample minimum of
`[1, 2, 3]`, so its below-`xmin` tail is empty. -/
def oracleA : StatOracle where
  fit := fun _ => ⟨1, 2, 0, 1/2⟩
  gen := fun _ _ => []
  idx := fun _ _ => 0
  compareLognormal := fun _ => (0, 0)

/-- A concrete oracle whose fit puts `xmin` at 2, so on `[1, 2, 3]` the
below-`xmin` tail `[1]` is nonempty. -/
def oracleB : StatOracle where
  fit := fun _ => ⟨2, 2, 0, 1/2⟩
  gen := fun _ _ => []
  idx := fun _ _ => 0
  compareLognormal := fun _ => (0, 0)

/-- C2 (counterexample): with `iterations = 0` the call does not return
`p_value = 0`; `p_value = p / it` at line 84 divides by zero, so the call
raises instead of returning a result. -/
theorem statAnalysis_it0_not_ok :
    StatisticalAnalysis_PowerLaw oracleA [1, 2, 3] 0 true =
      .error .zeroDivision := by
  rfl

/-- C2 (amended): for every oracle, sample and test flag, calling
`StatisticalAnalysis_PowerLaw` with `it = 0` runs no bootstrap iteration and
fails with a `ZeroDivisionError` from `p_value = p / it` instead of
returning `p_value = 0`. -/
theorem statAnalysis_it0_zero_division (o : StatOracle) (df : List ℤ)
    (test : Bool) :
    StatisticalAnalysis_PowerLaw o df 0 test = .error .zeroDivision := by
  cases test <;> simp [StatisticalAnalysis_PowerLaw, bootstrapCount]

/-- When the below-`xmin` tail is nonempty, one bootstrap iteration succeeds
and bumps the counter exactly when the refitted KS distance of the synthetic
sample strictly exceeds the empirical one. -/
theorem bootstrapIter_ok (o : StatOracle) (ks : ℚ) (tail : List ℤ) (n2 p j : ℕ)
    (h : 0 < tail.length) :
    bootstrapIter o ks tail n2 p j =
      .ok (if ks < (o.fit ((List.range tail.length).map
            (fun i => tail.getD (o.idx j i % tail.length) 0) ++ o.gen j n2)).D
          then p + 1 else p) := by
  simp [bootstrapIter, npRandint, h, List.map_map, Function.comp_def]

/-- Restatement of `bootstrapIter_ok` for the tail filtered out of a sample
`df`, phrased through `simulatedData`. -/
theorem bootstrapIter_ok_df (o : StatOracle) (df : List ℤ) (p j : ℕ)
    (h : 0 < (df.filter (fun x => decide (x < (o.fit df).xmin))).length) :
    bootstrapIter o (o.fit df).D
      (df.filter (fun x => decide (x < (o.fit df).xmin)))
      (df.length - (df.filter (fun x => decide (x < (o.fit df).xmin))).length)
      p j =
      .ok (if (o.fit df).D < (o.fit (simulatedData o df j)).D
        then p + 1 else p) := by
  rw [bootstrapIter_ok o _ _ _ _ _ h]
  rfl

/-- When the below-`xmin` tail of the sample is nonempty, the bootstrap loop
returns the count of iterations whose synthetic refit fits worse than the
empirical one. -/
theorem bootstrapCount_eq (o : StatOracle) (df : List ℤ) (it : ℕ)
    (h : 0 < (df.filter (fun x => decide (x < (o.fit df).xmin))).length) :
    bootstrapCount o (o.fit df).D
      (df.filter (fun x => decide (x < (o.fit df).xmin)))
      (df.length - (df.filter (fun x => decide (x < (o.fit df).xmin))).length)
      it = .ok (worseCount o df it) := by
  induction it with
  | zero => simp [bootstrapCount, worseCount]
  | succ n ih =>
      rw [bootstrapCount, ih]
      dsimp only
      rw [bootstrapIter_ok_df o df _ _ h]
      simp only [worseCount, List.range_succ, List.filter_append,
        List.length_append, List.filter_cons, List.filter_nil]
      by_cases hc : (o.fit df).D < (o.fit (simulatedData o df n)).D <;>
        simp [hc]

/-- C3 (counterexample): on a sample whose fitted `xmin` is the sample
minimum (empty below-`xmin` tail), the bootstrap test with one iteration
does not return `p_value = c / N`; it raises numpy's `ValueError` from
`randint(0, 0, (0,))`. -/
theorem statAnalysis_empty_tail_not_ok :
    StatisticalAnalysis_PowerLaw oracleA [1, 2, 3] 1 true =
      .error .valueError := by
  rfl

/-- C3 (amended): for every oracle and iteration count `N ≥ 1`, on a sample
with at least one value strictly below the fitted `xmin` the bootstrap test
returns `p_value = c / N`, where `c` counts the iterations whose synthetic
refit has a strictly larger KS distance than the empirical fit, and this
`p_value` lies in `[0, 1]`. -/
theorem statAnalysis_p_value_ratio (o : StatOracle) (df : List ℤ) (it : ℕ)
    (hit : 1 ≤ it)
    (h : 0 < (df.filter (fun x => decide (x < (o.fit df).xmin))).length) :
    ∃ r : PLResults, StatisticalAnalysis_PowerLaw o df it true = .ok r ∧
      r.p_value = (worseCount o df it : ℚ) / (it : ℚ) ∧
      0 ≤ r.p_value ∧ r.p_value ≤ 1 := by
  have hit' : it ≠ 0 := by omega
  have hpos : (0 : ℚ) < (it : ℚ) := by
    exact_mod_cast Nat.lt_of_lt_of_le Nat.zero_lt_one hit
  have heq : StatisticalAnalysis_PowerLaw o df it true =
      .ok { xmin := (o.fit df).xmin, alpha := (o.fit df).alpha - 1,
            sigma := (o.fit df).sigma, ks_distance := (o.fit df).D,
            p_value := (worseCount o df it : ℚ) / (it : ℚ),
            test_iterations := it,
            p_lognormal := (o.compareLognormal df).2,
            r_lognormal := (o.compareLognormal df).1 } := by
    rw [StatisticalAnalysis_PowerLaw]
    dsimp only
    rw [if_pos rfl, bootstrapCount_eq o df it h]
    dsimp only
    rw [if_neg hit']
  refine ⟨_, heq, rfl, by positivity, ?_⟩
  rw [div_le_one hpos]
  have hle : worseCount o df it ≤ it := by
    calc worseCount o df it ≤ (List.range it).length :=
          List.length_filter_le _ _
      _ = it := List.length_range it
  exact_mod_cast hle

/-- C3 (witness for the amended theorem): on `[1, 2, 3]` with `oracleB`
(whose fitted `xmin` is 2, so the tail `[1]` is nonempty) and one iteration,
the hypotheses hold and the theorem applies. -/
theorem statAnalysis_p_value_ratio_witness :
    1 ≤ 1 ∧
      0 < (([1, 2, 3] : List ℤ).filter
        (fun x => decide (x < (oracleB.fit [1, 2, 3]).xmin))).length ∧
      ∃ r : PLResults,
        StatisticalAnalysis_PowerLaw oracleB [1, 2, 3] 1 true = .ok r ∧
        r.p_value = (worseCount oracleB [1, 2, 3] 1 : ℚ) / (1 : ℚ) ∧
        0 ≤ r.p_value ∧ r.p_value ≤ 1 :=
  ⟨le_refl 1, by decide,
    statAnalysis_p_value_ratio oracleB [1, 2, 3] 1 (le_refl 1) (by decide)⟩

/-- C9: when the fitted `xmin` equals the sample minimum, the below-`xmin`
tail is empty, and the bootstrap test with at least one iteration raises
numpy's `ValueError` (the resampling step `randint(0, n_1, (n_1,))` rejects
low ≥ high even though zero resampled values are needed) instead of
returning a result. -/
theorem statAnalysis_empty_tail_raises (o : StatOracle) (df : List ℤ)
    (it : ℕ) (hit : 1 ≤ it)
    (h : (df.filter (fun x => decide (x < (o.fit df).xmin))).length = 0) :
    StatisticalAnalysis_PowerLaw o df it true = .error .valueError := by
  have hcount : ∀ n : ℕ, 1 ≤ n →
      bootstrapCount o (o.fit df).D
        (df.filter (fun x => decide (x < (o.fit df).xmin)))
        (df.length -
          (df.filter (fun x => decide (x < (o.fit df).xmin))).length) n =
        .error .valueError := by
    intro n hn
    induction n with
    | zero => omega
    | succ m ih =>
        rw [bootstrapCount]
        rcases Nat.eq_zero_or_pos m with hm | hm
        · subst hm
          rw [bootstrapCount]
          dsimp only
          rw [bootstrapIter, npRandint, h, if_neg (lt_irrefl 0)]
        · rw [ih hm]
  rw [StatisticalAnalysis_PowerLaw]
  dsimp only
  rw [if_pos rfl, hcount it hit]

/-- C9 (witness): `oracleA` fits `xmin = 1` on `[1, 2, 3]`, whose minimum is
1, so the tail is empty and one bootstrap iteration raises. -/
theorem statAnalysis_empty_tail_raises_witness :
    1 ≤ 1 ∧
      (([1, 2, 3] : List ℤ).filter
        (fun x => decide (x < (oracleA.fit [1, 2, 3]).xmin))).length = 0 ∧
      StatisticalAnalysis_PowerLaw oracleA [1, 2, 3] 1 true =
        .error .valueError :=
  ⟨le_refl 1, by decide,
    statAnalysis_empty_tail_raises oracleA [1, 2, 3] 1 (le_refl 1) (by decide)⟩

/-- C10: with the `test` flag false and any `N ≥ 1` iterations, no bootstrap
simulation runs, and the returned record has `p_value = 0` while its
iterations field still reports `N`. -/
theorem statAnalysis_no_test_p_zero (o : StatOracle) (df : List ℤ) (it : ℕ)
    (hit : 1 ≤ it) :
    ∃ r : PLResults, StatisticalAnalysis_PowerLaw o df it false = .ok r ∧
      r.p_value = 0 ∧ r.test_iterations = it := by
  have hit' : it ≠ 0 := by omega
  have heq : StatisticalAnalysis_PowerLaw o df it false =
      .ok { xmin := (o.fit df).xmin, alpha := (o.fit df).alpha - 1,
            sigma := (o.fit df).sigma, ks_distance := (o.fit df).D,
            p_value := ((0 : ℕ) : ℚ) / (it : ℚ),
            test_iterations := it,
            p_lognormal := (o.compareLognormal df).2,
            r_lognormal := (o.compareLognormal df).1 } := by
    rw [StatisticalAnalysis_PowerLaw]
    simp only [Bool.false_eq_true, if_false]
    rw [if_neg hit']
  exact ⟨_, heq, by simp, rfl⟩

/-- C10 (witness): concrete run with `test = false` and one iteration. -/
theorem statAnalysis_no_test_p_zero_witness :
    1 ≤ 1 ∧
      ∃ r : PLResults,
        StatisticalAnalysis_PowerLaw oracleA [1, 2, 3] 1 false = .ok r ∧
        r.p_value = 0 ∧ r.test_iterations = 1 :=
  ⟨le_refl 1, statAnalysis_no_test_p_zero oracleA [1, 2, 3] 1 (le_refl 1)⟩

/-- C4: whenever `StatisticalAnalysis_PowerLaw` returns a result record, its
`alpha` field is the fitted maximum-likelihood exponent minus 1 — the
documented continuous-analogue offset of line 88 is applied. -/
theorem statAnalysis_alpha_offset (o : StatOracle) (df : List ℤ) (it : ℕ)
    (test : Bool) (r : PLResults)
    (hr : StatisticalAnalysis_PowerLaw o df it test = .ok r) :
    r.alpha = (o.fit df).alpha - 1 := by
  rw [StatisticalAnalysis_PowerLaw] at hr
  dsimp only at hr
  split at hr
  · exact absurd hr (by simp)
  · split at hr
    · exact absurd hr (by simp)
    · cases hr
      rfl

/-- The concrete result record produced by `oracleA` on `[1, 2, 3]` with one
iteration and no hypothesis test. -/
def resultA : PLResults :=
  { xmin := 1, alpha := 1, sigma := 0, ks_distance := 1/2, p_value := 0,
    test_iterations := 1, p_lognormal := 0, r_lognormal := 0 }

/-- C4 (witness): the concrete run returns `resultA`, whose `alpha` is the
fitted exponent 2 minus 1. -/
theorem statAnalysis_alpha_offset_witness :
    StatisticalAnalysis_PowerLaw oracleA [1, 2, 3] 1 false = .ok resultA ∧
      resultA.alpha = (oracleA.fit [1, 2, 3]).alpha - 1 :=
  have h : StatisticalAnalysis_PowerLaw oracleA [1, 2, 3] 1 false =
      .ok resultA := by
    simp only [StatisticalAnalysis_PowerLaw, oracleA, resultA,
      Bool.false_eq_true, if_false]
    norm_num
  ⟨h, statAnalysis_alpha_offset oracleA [1, 2, 3] 1 false resultA h⟩

/-- C8: a sample with fewer than 2 distinct values (in particular an
all-equal or empty sample) makes the power-law fit fail with the typed
error `InsufficientData`, for every estimator of the success path. -/
theorem powerLawFit_insufficientData (est : List ℤ → PLFit)
    (sample : List ℤ) (h : sample.dedup.length < 2) :
    PowerLawFitter_fit est sample = .error .insufficientData := by
  rw [PowerLawFitter_fit, if_pos h]

/-- C8 (witness): the all-equal sample `[5, 5, 5]` has a single distinct
value and is rejected with `InsufficientData`. -/
theorem powerLawFit_insufficientData_witness :
    (([5, 5, 5] : List ℤ).dedup.length < 2) ∧
      PowerLawFitter_fit (fun _ => ⟨1, 2, 0, 0⟩) [5, 5, 5] =
        .error .insufficientData :=
  ⟨by decide, powerLawFit_insufficientData (fun _ => ⟨1, 2, 0, 0⟩) [5, 5, 5]
    (by decide)⟩

/-! ## CCA by convex envelope intersections (DataProcessing.py lines 28-70)

The geometric kernel is modelled from the spec (§4.1 GeometryIndex) over
exact integer planar coordinates.  A polygon's convex hull is represented by
the list of its vertices; membership in the hull is the Carathéodory test
(the point lies in a triangle spanned by three vertices, degenerate
triangles included), and two hulls intersect exactly when a vertex of one
lies in the other or two spanned segments cross.  Boundary points count as
inside, the documented tie-break of §4.1. -/

/-- A planar point with exact integer coordinates. -/
abbrev Pt := ℤ × ℤ

/-- Modelled from the spec: twice the signed area of the triangle `a b c`;
positive when `a b c` wind counter-clockwise, zero when collinear. -/
def orient (a b c : Pt) : ℤ :=
  (b.1 - a.1) * (c.2 - a.2) - (b.2 - a.2) * (c.1 - a.1)

/-- Modelled from the spec: `p` lies on the closed segment from `a` to `b`. -/
def onSeg (p a b : Pt) : Bool :=
  decide (orient a b p = 0 ∧ min a.1 b.1 ≤ p.1 ∧ p.1 ≤ max a.1 b.1 ∧
    min a.2 b.2 ≤ p.2 ∧ p.2 ≤ max a.2 b.2)

/-- Modelled from the spec: `p` lies in the closed triangle spanned by
`a`, `b`, `c` (reduced to the spanned segments when the three points are
collinear). -/
def inTri (p a b c : Pt) : Bool :=
  let d := orient a b c
  if d = 0 then onSeg p a b || onSeg p b c || onSeg p a c
  else decide (0 ≤ d * orient a b p ∧ 0 ≤ d * orient b c p ∧
    0 ≤ d * orient c a p)

/-- Modelled from the spec (`within`): `p` lies in the closed convex hull of
the point list `h` — by Carathéodory, in a triangle spanned by three of its
points.  Boundary counts as inside (§4.1). -/
def ptInHull (p : Pt) (h : List Pt) : Bool :=
  h.any (fun a => h.any (fun b => h.any (fun c => inTri p a b c)))

/-- Modelled from the spec: the closed segments `a b` and `c d` meet. -/
def segsIntersect (a b c d : Pt) : Bool :=
  (decide (orient c d a * orient c d b < 0 ∧ orient a b c * orient a b d < 0))
    || onSeg a c d || onSeg b c d || onSeg c a b || onSeg d a b

/-- Modelled from the spec (`unionAll`'s merge criterion): the convex hulls
of the two vertex lists intersect — some vertex of one lies in the hull of
the other, or two spanned segments cross. -/
def hullsIntersect (h1 h2 : List Pt) : Bool :=
  h1.any (fun p => ptInHull p h2) || h2.any (fun p => ptInHull p h1) ||
    h1.any (fun a => h1.any (fun b =>
      h2.any (fun c => h2.any (fun d => segsIntersect a b c d))))

/-- An input polygon row of `data_polygons`: the external key, the vertex
list of its convex envelope, its centroid (a GeometryIndex output, carried
as data), and the numeric attribute to be aggregated. -/
structure Poly where
  key : ℕ
  verts : List Pt
  centroid : Pt
  attr : ℤ
deriving DecidableEq

/-- A hull-union component: the list of member convex hulls, whose union is
the component's geometry. -/
abbrev Component := List (List Pt)

/-- Does the hull `h` touch the component `c`? -/
def compIntersects (h : List Pt) (c : Component) : Bool :=
  c.any (fun g => hullsIntersect h g)

/-- Add one hull to a component decomposition: merge every component it
touches into one (the incremental step of `unary_union`'s connected-
component decomposition). -/
def addHull (cs : List Component) (h : List Pt) : List Component :=
  let part := cs.partition (fun c => compIntersects h c)
  (h :: part.1.flatten) :: part.2

/-- `geometry_convexhull.unary_union.geoms` (lines 43-48): decompose the
union of all convex envelopes into its connected components. -/
def hullComponents (polys : List Poly) : List Component :=
  (polys.map Poly.verts).foldl addHull []

/-- Modelled from the spec (`within` against a dissolved multi-part
geometry): the point lies in the union of the component's hulls. -/
def inComponent (p : Pt) (c : Component) : Bool :=
  c.any (fun h => ptInHull p h)

/-- The `id_convex` values (1-based component indices, line 50) of the
components containing the point — the matches of the spatial join. -/
def matchingIds (p : Pt) (cs : List Component) : List ℕ :=
  ((List.range cs.length).filter
    (fun i => inComponent p (cs.getD i []))).map (· + 1)

/-- The spatial left join `gpd.sjoin(data_centroid, data_convexhull,
how='left', predicate='within')` (line 59): one row `(key, some id)` per
containing component, or a single row `(key, none)` when no component
contains the centroid. -/
def cRows (cs : List Component) (q : Poly) : List (ℕ × Option ℕ) :=
  let m := matchingIds q.centroid cs
  if m = [] then [(q.key, none)] else m.map (fun i => (q.key, some i))

/-- All rows of the joined centroid frame. -/
def centroidRows (polys : List Poly) (cs : List Component) :
    List (ℕ × Option ℕ) :=
  polys.flatMap (cRows cs)

/-- `pd.merge(data_polygons, data_centroid, how='left', on=key)` (line 61):
each polygon row is replicated once per centroid row bearing its key, and
kept with a null id when no centroid row matches. -/
def mergeRows (polys : List Poly) (rows : List (ℕ × Option ℕ)) :
    List (Poly × Option ℕ) :=
  polys.flatMap (fun q =>
    let rs := rows.filter (fun r => decide (r.1 = q.key))
    if rs = [] then [(q, none)] else rs.map (fun r => (q, r.2)))

/-- One output row of `data_grouped.dissolve(by='id_convex',
aggfunc='sum')`: the component id, the member polygons (whose union is the
dissolved geometry), and the summed attribute. -/
structure GroupRow where
  id : ℕ
  members : List Poly
  attr : ℤ
deriving DecidableEq

/-- The group keys of the dissolve: the distinct non-null `id_convex`
values, in ascending order (pandas sorts group keys). -/
def dissolveIds (rows : List (Poly × Option ℕ)) : List ℕ :=
  ((rows.filterMap Prod.snd).dedup).insertionSort (fun a b => a ≤ b)

/-- `data_grouped.dissolve(by='id_convex', aggfunc='sum')` (line 64): rows
with a null id are dropped; the rest are grouped by id and their attributes
summed. -/
def dissolve (rows : List (Poly × Option ℕ)) : List GroupRow :=
  (dissolveIds rows).map (fun i =>
    let ms := rows.filter (fun r => decide (r.2 = some i))
    { id := i, members := ms.map Prod.fst,
      attr := (ms.map (fun r => r.1.attr)).sum })

/-- One row of the returned `natural_cities` frame: the component id, the
component geometry, and the aggregated attribute brought in by the left
merge of line 67 — `none` when no dissolved group carries this id. -/
structure CityRow where
  id : ℕ
  geom : Component
  attr : Option ℤ
deriving DecidableEq

/-- `pd.merge(data_convexhull, data_grouped, how='left', on='id_convex')`
(lines 67-68): every component keeps exactly one row (dissolve ids are
unique), tagged with the summed attribute of its group when one exists. -/
def naturalCities (cs : List Component) (g : List GroupRow) : List CityRow :=
  (List.range cs.length).map (fun i =>
    { id := i + 1, geom := cs.getD i [],
      attr := (g.find? (fun r => r.id == i + 1)).map GroupRow.attr })

/-- `CCA_by_ConvexEnvelopIntersections(data_polygons, key, projection)`
(lines 28-70): returns `(natural_cities, data_grouped)`. -/
def CCA_by_ConvexEnvelopIntersections (polys : List Poly) :
    List CityRow × List GroupRow :=
  let cs := hullComponents polys
  let rows := centroidRows polys cs
  let grows := mergeRows polys rows
  let g := dissolve grows
  (naturalCities cs g, g)

/-! ### Structure of the joined rows

When the polygon keys are pairwise distinct, the merge of line 61 pairs each
polygon with exactly the join rows of its own centroid. -/

/-- The rows the key-merge produces for one polygon under distinct keys. -/
def gBlock (cs : List Component) (q : Poly) : List (Poly × Option ℕ) :=
  let m := matchingIds q.centroid cs
  if m = [] then [(q, none)] else m.map (fun i => (q, some i))

theorem cRows_ne_nil (cs : List Component) (q : Poly) : cRows cs q ≠ [] := by
  rw [cRows]
  split
  · simp
  · simp [List.map_eq_nil_iff]
    assumption

theorem cRows_fst (cs : List Component) (q : Poly) :
    ∀ r ∈ cRows cs q, r.1 = q.key := by
  rw [cRows]
  split
  · intro r hr
    simp at hr
    simp [hr]
  · intro r hr
    simp at hr
    obtain ⟨i, _, hr⟩ := hr
    simp [← hr]

theorem cRows_map_snd (cs : List Component) (q : Poly) :
    (cRows cs q).map (fun r => (q, r.2)) = gBlock cs q := by
  rw [cRows, gBlock]
  split <;> simp [List.map_map, Function.comp_def]

theorem filter_cRows_self (cs : List Component) (q : Poly) :
    (cRows cs q).filter (fun r => decide (r.1 = q.key)) = cRows cs q :=
  List.filter_eq_self.mpr (fun r hr => by simp [cRows_fst cs q r hr])

theorem filter_cRows_ne (cs : List Component) (q : Poly) (k : ℕ)
    (hk : k ≠ q.key) :
    (cRows cs q).filter (fun r => decide (r.1 = k)) = [] :=
  List.filter_eq_nil_iff.mpr (fun r hr => by
    simp [cRows_fst cs q r hr]
    exact fun h => hk h.symm)

theorem filter_centroidRows_ne (polys : List Poly) (cs : List Component)
    (k : ℕ) (hk : k ∉ polys.map Poly.key) :
    (centroidRows polys cs).filter (fun r => decide (r.1 = k)) = [] := by
  apply List.filter_eq_nil_iff.mpr
  intro r hr
  rw [centroidRows] at hr
  obtain ⟨q, hq, hr⟩ := List.mem_flatMap.mp hr
  have := cRows_fst cs q r hr
  simp only [decide_eq_true_eq, this]
  intro h
  exact hk (h ▸ List.mem_map_of_mem Poly.key hq)

theorem mergeRows_congr (polys : List Poly)
    (rows1 rows2 : List (ℕ × Option ℕ))
    (h : ∀ q ∈ polys, rows1.filter (fun r => decide (r.1 = q.key)) =
      rows2.filter (fun r => decide (r.1 = q.key))) :
    mergeRows polys rows1 = mergeRows polys rows2 := by
  induction polys with
  | nil => rfl
  | cons q t ih =>
      rw [mergeRows, mergeRows, List.flatMap_cons, List.flatMap_cons]
      rw [← mergeRows, ← mergeRows, ih (fun p hp => h p (List.mem_cons_of_mem q hp))]
      rw [h q (List.mem_cons_self q t)]

/-- Under pairwise-distinct keys, the merged frame of line 61 is one block
per polygon: its own join rows, re-tagged with the full polygon row. -/
theorem mergeRows_centroidRows_eq (polys : List Poly) (cs : List Component)
    (hkeys : (polys.map Poly.key).Nodup) :
    mergeRows polys (centroidRows polys cs) = polys.flatMap (gBlock cs) := by
  induction polys with
  | nil => rfl
  | cons q t ih =>
      rw [List.map_cons, List.nodup_cons] at hkeys
      obtain ⟨hkq, hkt⟩ := hkeys
      rw [mergeRows, List.flatMap_cons, ← mergeRows, List.flatMap_cons]
      have hrowsplit : centroidRows (q :: t) cs =
          cRows cs q ++ centroidRows t cs := by
        rw [centroidRows, List.flatMap_cons, centroidRows]
      have hfq : (centroidRows (q :: t) cs).filter
          (fun r => decide (r.1 = q.key)) = cRows cs q := by
        rw [hrowsplit, List.filter_append, filter_cRows_self,
          filter_centroidRows_ne t cs q.key hkq, List.append_nil]
      rw [hfq, if_neg (cRows_ne_nil cs q), cRows_map_snd]
      congr 1
      have : mergeRows t (centroidRows (q :: t) cs) =
          mergeRows t (centroidRows t cs) := by
        apply mergeRows_congr
        intro p hp
        rw [hrowsplit, List.filter_append, filter_cRows_ne cs q p.key]
        · rw [List.nil_append]
        · intro hpq
          exact hkq (hpq ▸ List.mem_map_of_mem Poly.key hp)
      rw [this, ih hkt]

/-! ### The dissolve of line 64 conserves the attribute mass of the
matched rows -/

theorem sum_map_zero {α : Type} (l : List α) :
    (l.map (fun _ => (0 : ℤ))).sum = 0 := by
  induction l with
  | nil => rfl
  | cons a t ih => simp [ih]

theorem sum_map_add {α : Type} (l : List α) (f g : α → ℤ) :
    (l.map (fun x => f x + g x)).sum = (l.map f).sum + (l.map g).sum := by
  induction l with
  | nil => rfl
  | cons a t ih =>
      simp only [List.map_cons, List.sum_cons, ih]
      ring

/-- Summing the indicator of a single id over a duplicate-free id list. -/
theorem sum_single (ids : List ℕ) (i0 : ℕ) (v : ℤ) (hno : ids.Nodup)
    (hi : i0 ∈ ids) :
    (ids.map (fun i => if i = i0 then v else 0)).sum = v := by
  induction ids with
  | nil => cases hi
  | cons a t ih =>
      rw [List.nodup_cons] at hno
      rcases List.mem_cons.mp hi with ha | ht
      · subst ha
        have hz : ∀ i ∈ t, (if i = i0 then v else 0) = 0 := by
          intro i hit
          rw [if_neg]
          intro hia
          exact hno.1 (hia ▸ hit)
        simp only [List.map_cons, List.sum_cons, if_pos rfl]
        rw [List.map_congr_left hz, sum_map_zero, add_zero]
        simp
      · have hai : a ≠ i0 := by
          intro h
          exact hno.1 (h ▸ ht)
        simp only [List.map_cons, List.sum_cons, if_neg hai, zero_add]
        exact ih hno.2 ht

/-- Grouping the rows by their id and summing each group accounts exactly
for the rows bearing a non-null id, once each. -/
theorem sum_fibers (ids : List ℕ) (rows : List (Poly × Option ℕ))
    (hno : ids.Nodup)
    (hcov : ∀ r ∈ rows, ∀ i : ℕ, r.2 = some i → i ∈ ids) :
    (ids.map (fun i =>
      ((rows.filter (fun r => decide (r.2 = some i))).map
        (fun r => r.1.attr)).sum)).sum =
    ((rows.filter (fun r => decide (r.2 ≠ none))).map
      (fun r => r.1.attr)).sum := by
  induction rows with
  | nil => simp [sum_map_zero]
  | cons r t ih =>
      have ihcov : ∀ s ∈ t, ∀ i : ℕ, s.2 = some i → i ∈ ids :=
        fun s hs => hcov s (List.mem_cons_of_mem r hs)
      have hsplit : ∀ i : ℕ,
          (((r :: t).filter (fun s => decide (s.2 = some i))).map
            (fun s => s.1.attr)).sum =
          (if r.2 = some i then r.1.attr else 0) +
            ((t.filter (fun s => decide (s.2 = some i))).map
              (fun s => s.1.attr)).sum := by
        intro i
        rw [List.filter_cons]
        by_cases hr : r.2 = some i <;> simp [hr]
      rw [List.map_congr_left (fun i _ => hsplit i), sum_map_add, ih ihcov]
      rw [List.filter_cons]
      cases hr2 : r.2 with
      | none =>
          have hz : (fun i : ℕ =>
              if (none : Option ℕ) = some i then r.1.attr else 0) =
              fun _ => (0 : ℤ) := by
            funext i
            simp
          rw [hz, sum_map_zero, zero_add]
          simp
      | some i0 =>
          have hmem : i0 ∈ ids := hcov r (List.mem_cons_self r t) i0 hr2
          have he : (fun i : ℕ =>
              if some i0 = some i then r.1.attr else 0) =
              fun i => if i = i0 then r.1.attr else 0 := by
            funext i
            by_cases hi : i = i0
            · simp [hi]
            · rw [if_neg (fun h => hi (Option.some.inj h).symm), if_neg hi]
          rw [he, sum_single ids i0 r.1.attr hno hmem]
          simp

theorem dissolveIds_nodup (rows : List (Poly × Option ℕ)) :
    (dissolveIds rows).Nodup := by
  rw [dissolveIds]
  exact ((List.perm_insertionSort _ _).nodup_iff).mpr
    (List.nodup_dedup _)

theorem mem_dissolveIds (rows : List (Poly × Option ℕ)) (i : ℕ) :
    i ∈ dissolveIds rows ↔ ∃ r ∈ rows, r.2 = some i := by
  rw [dissolveIds, (List.perm_insertionSort _ _).mem_iff, List.mem_dedup,
    List.mem_filterMap]

/-- The dissolve of line 64 conserves attribute mass: the group sums add up
to the total attribute of the rows with a non-null component id. -/
theorem dissolve_sum (rows : List (Poly × Option ℕ)) :
    ((dissolve rows).map GroupRow.attr).sum =
    ((rows.filter (fun r => decide (r.2 ≠ none))).map
      (fun r => r.1.attr)).sum := by
  rw [dissolve, List.map_map]
  have : (GroupRow.attr ∘ fun i =>
      { id := i,
        members := (rows.filter (fun r => decide (r.2 = some i))).map Prod.fst,
        attr := ((rows.filter (fun r => decide (r.2 = some i))).map
          (fun r => r.1.attr)).sum : GroupRow }) =
      fun i => ((rows.filter (fun r => decide (r.2 = some i))).map
        (fun r => r.1.attr)).sum := rfl
  rw [this]
  exact sum_fibers (dissolveIds rows) rows (dissolveIds_nodup rows)
    (fun r hr i hi => (mem_dissolveIds rows i).mpr ⟨r, hr, hi⟩)

/-- When every centroid lies in at most one component (the spec's
disjointness invariant), the non-null rows carry each matched polygon's
attribute exactly once. -/
theorem blocks_some_sum (cs : List Component) (polys : List Poly)
    (huniq : ∀ q ∈ polys, (matchingIds q.centroid cs).length ≤ 1) :
    (((polys.flatMap (gBlock cs)).filter
        (fun r => decide (r.2 ≠ none))).map (fun r => r.1.attr)).sum =
    ((polys.filter (fun q => decide (matchingIds q.centroid cs ≠ []))).map
      Poly.attr).sum := by
  induction polys with
  | nil => rfl
  | cons q t ih =>
      have ihuniq : ∀ p ∈ t, (matchingIds p.centroid cs).length ≤ 1 :=
        fun p hp => huniq p (List.mem_cons_of_mem q hp)
      rw [List.flatMap_cons, List.filter_append, List.map_append,
        List.sum_append, ih ihuniq, List.filter_cons]
      by_cases hm : matchingIds q.centroid cs = []
      · simp [gBlock, hm]
      · have h1 : (matchingIds q.centroid cs).length = 1 :=
          Nat.le_antisymm (huniq q (List.mem_cons_self q t))
            (List.length_pos.mpr hm)
        obtain ⟨i, hi⟩ := List.length_eq_one.mp h1
        simp [gBlock, hm, hi]

theorem sum_if_erase (L : List ℕ) (a : ℕ) (v : ℤ) (f : ℕ → ℤ)
    (hL : L.Nodup) (ha : a ∈ L) :
    (L.map (fun i => if i = a then v else f i)).sum =
      v + ((L.erase a).map f).sum := by
  induction L with
  | nil => cases ha
  | cons b t ih =>
      rw [List.nodup_cons] at hL
      by_cases hb : b = a
      · subst hb
        rw [List.erase_cons_head]
        have hz : ∀ i ∈ t, (if i = b then v else f i) = f i := by
          intro i hit
          rw [if_neg]
          intro hib
          exact hL.1 (hib ▸ hit)
        simp only [List.map_cons, List.sum_cons, if_pos rfl]
        rw [List.map_congr_left hz]
        simp
      · have hat : a ∈ t := by
          rcases List.mem_cons.mp ha with h | h
          · exact absurd h.symm hb
          · exact h
        rw [List.erase_cons_tail (by simpa using hb)]
        simp only [List.map_cons, List.sum_cons, if_neg hb]
        rw [ih hL.2 hat]
        ring

/-- Summing the left-merge lookups of line 67 over a duplicate-free id list
covering the group ids recovers exactly the group sums. -/
theorem sum_lookup (g : List GroupRow) (L : List ℕ) (hL : L.Nodup)
    (hids : (g.map GroupRow.id).Nodup) (hsub : ∀ r ∈ g, r.id ∈ L) :
    (L.map (fun i =>
      ((g.find? (fun r => r.id == i)).map GroupRow.attr).getD 0)).sum =
      (g.map GroupRow.attr).sum := by
  induction g generalizing L with
  | nil => simp
  | cons r gt ih =>
      rw [List.map_cons, List.nodup_cons] at hids
      have he : (fun i : ℕ =>
          (((r :: gt).find? (fun s => s.id == i)).map GroupRow.attr).getD 0) =
          fun i => if i = r.id then r.attr else
            ((gt.find? (fun s => s.id == i)).map GroupRow.attr).getD 0 := by
        funext i
        rw [List.find?_cons]
        by_cases h : r.id = i
        · have hb : (r.id == i) = true := by simpa using h
          rw [hb]
          subst h
          simp
        · have hb : (r.id == i) = false := by simpa using h
          have h' : ¬ i = r.id := fun hh => h hh.symm
          rw [hb]
          simp [h']
      rw [he, sum_if_erase L r.id r.attr _ hL (hsub r (List.mem_cons_self r gt))]
      rw [List.map_cons, List.sum_cons]
      congr 1
      apply ih (L.erase r.id) (hL.erase r.id) hids.2
      intro s hs
      have hne : s.id ≠ r.id := fun hsr =>
        hids.1 (hsr ▸ List.mem_map_of_mem GroupRow.id hs)
      exact (List.mem_erase_of_ne hne).mpr
        (hsub s (List.mem_cons_of_mem r hs))

theorem dissolve_map_id (rows : List (Poly × Option ℕ)) :
    (dissolve rows).map GroupRow.id = dissolveIds rows := by
  rw [dissolve, List.map_map]
  exact List.map_id _

theorem matchingIds_mem (p : Pt) (cs : List Component) (i : ℕ)
    (h : i ∈ matchingIds p cs) : ∃ j, j < cs.length ∧ i = j + 1 := by
  rw [matchingIds] at h
  obtain ⟨j, hj, rfl⟩ := List.mem_map.mp h
  exact ⟨j, List.mem_range.mp (List.mem_filter.mp hj).1, rfl⟩

theorem mergeRows_snd_some (polys : List Poly) (rows0 : List (ℕ × Option ℕ))
    (row : Poly × Option ℕ) (hrow : row ∈ mergeRows polys rows0) (i : ℕ)
    (hi : row.2 = some i) : ∃ r0 ∈ rows0, r0.2 = some i := by
  rw [mergeRows] at hrow
  obtain ⟨q, _, hrow⟩ := List.mem_flatMap.mp hrow
  dsimp only at hrow
  split at hrow
  · simp at hrow
    subst hrow
    simp at hi
  · obtain ⟨r0, hr0, hrow⟩ := List.mem_map.mp hrow
    refine ⟨r0, List.mem_of_mem_filter hr0, ?_⟩
    rw [← hi, ← hrow]

theorem centroidRows_snd_some (polys : List Poly) (cs : List Component)
    (r0 : ℕ × Option ℕ) (hr0 : r0 ∈ centroidRows polys cs) (i : ℕ)
    (hi : r0.2 = some i) : ∃ p : Pt, i ∈ matchingIds p cs := by
  rw [centroidRows] at hr0
  obtain ⟨q, _, hr0⟩ := List.mem_flatMap.mp hr0
  rw [cRows] at hr0
  split at hr0
  · simp at hr0
    subst hr0
    simp at hi
  · obtain ⟨j, hj, hr0⟩ := List.mem_map.mp hr0
    refine ⟨q.centroid, ?_⟩
    rw [← hr0] at hi
    cases hi
    exact hj

/-- Attribute-mass conservation of `CCA_by_ConvexEnvelopIntersections`:
under pairwise-distinct keys and at-most-one containing component per
centroid, the aggregated natural-city totals sum to the total attribute of
the matched polygons. -/
theorem cca_sum_aux (polys : List Poly)
    (hkeys : (polys.map Poly.key).Nodup)
    (huniq : ∀ q ∈ polys,
      (matchingIds q.centroid (hullComponents polys)).length ≤ 1) :
    ((CCA_by_ConvexEnvelopIntersections polys).1.map
      (fun c => c.attr.getD 0)).sum =
    ((polys.filter (fun q =>
      decide (matchingIds q.centroid (hullComponents polys) ≠ []))).map
      Poly.attr).sum := by
  rw [CCA_by_ConvexEnvelopIntersections]
  dsimp only
  set cs := hullComponents polys with hcs
  set grows := mergeRows polys (centroidRows polys cs) with hgrows
  set g := dissolve grows with hg
  have hstepA : ((naturalCities cs g).map (fun c => c.attr.getD 0)).sum =
      (g.map GroupRow.attr).sum := by
    rw [naturalCities, List.map_map]
    have hcomp : ((fun c : CityRow => c.attr.getD 0) ∘ fun i =>
        { id := i + 1, geom := cs.getD i [],
          attr := (g.find? (fun r => r.id == i + 1)).map GroupRow.attr }) =
        (fun i : ℕ =>
          ((g.find? (fun r => r.id == i)).map GroupRow.attr).getD 0) ∘
          (fun i => i + 1) := rfl
    rw [hcomp, ← List.map_map]
    apply sum_lookup
    · exact (List.nodup_range _).map (add_left_injective 1)
    · rw [hg, dissolve_map_id]
      exact dissolveIds_nodup grows
    · intro r hr
      rw [hg, dissolve] at hr
      obtain ⟨i, hi, hr⟩ := List.mem_map.mp hr
      have hrid : r.id = i := by rw [← hr]
      obtain ⟨row, hrow, hrowi⟩ := (mem_dissolveIds grows i).mp hi
      obtain ⟨r0, hr0, hr0i⟩ :=
        mergeRows_snd_some polys (centroidRows polys cs) row hrow i hrowi
      obtain ⟨p, hp⟩ := centroidRows_snd_some polys cs r0 hr0 i hr0i
      obtain ⟨j, hj, rfl⟩ := matchingIds_mem p cs i hp
      rw [hrid]
      exact List.mem_map_of_mem _ (List.mem_range.mpr hj)
  rw [hstepA, hg, dissolve_sum, hgrows,
    mergeRows_centroidRows_eq polys cs hkeys]
  exact blocks_some_sum cs polys huniq

/-! ### The claims about the clustering -/

/-- Concrete clustering input: two overlapping squares and one far-away
square, with pairwise-distinct keys and uniquely matched centroids. -/
def polysW : List Poly :=
  [⟨1, [(0,0),(4,0),(4,4),(0,4)], (2,2), 10⟩,
   ⟨2, [(3,0),(7,0),(7,4),(3,4)], (5,2), 20⟩,
   ⟨3, [(100,100),(104,100),(104,104),(100,104)], (102,102), 7⟩]

/-- C1: the clustering conserves attribute mass — the aggregated totals of
the returned natural cities sum to the total attribute of the matched input
polygons, each matched polygon contributing exactly once.  Hypotheses are
the spec's own invariants: pairwise-distinct keys, and each centroid inside
at most one hull-union component (components are disjoint by
construction). -/
theorem cca_attribute_conservation (polys : List Poly)
    (hkeys : (polys.map Poly.key).Nodup)
    (huniq : ∀ q ∈ polys,
      (matchingIds q.centroid (hullComponents polys)).length ≤ 1) :
    ((CCA_by_ConvexEnvelopIntersections polys).1.map
      (fun c => c.attr.getD 0)).sum =
    ((polys.filter (fun q =>
      decide (matchingIds q.centroid (hullComponents polys) ≠ []))).map
      Poly.attr).sum :=
  cca_sum_aux polys hkeys huniq

/-- C1 (witness): the three-square input satisfies both hypotheses and the
conservation equation (totals 30 and 7, all three polygons matched). -/
theorem cca_attribute_conservation_witness :
    (polysW.map Poly.key).Nodup ∧
      (∀ q ∈ polysW,
        (matchingIds q.centroid (hullComponents polysW)).length ≤ 1) ∧
      ((CCA_by_ConvexEnvelopIntersections polysW).1.map
        (fun c => c.attr.getD 0)).sum =
      ((polysW.filter (fun q =>
        decide (matchingIds q.centroid (hullComponents polysW) ≠ []))).map
        Poly.attr).sum :=
  ⟨by decide, by decide,
    cca_attribute_conservation polysW (by decide) (by decide)⟩

theorem gBlock_fst (cs : List Component) (q : Poly) :
    ∀ r ∈ gBlock cs q, r.1 = q := by
  rw [gBlock]
  split
  · intro r hr
    simp at hr
    simp [hr]
  · intro r hr
    obtain ⟨i, _, hr⟩ := List.mem_map.mp hr
    rw [← hr]

/-- A matched polygon of the clustering input: one containing component. -/
def matchedPoly (st : List Poly) (q : Poly) : Prop :=
  matchingIds q.centroid (hullComponents st) ≠ []

/-- The first polygon of the unmatched-polygon counterexample: a square
whose centroid is inside it. -/
def M5 : Poly := ⟨1, [(0,0),(4,0),(4,4),(0,4)], (2,2), 10⟩

/-- The second polygon of the unmatched-polygon counterexample: a square
overlapping `M5` but whose centroid — as the geometry kernel may report for
degenerate/boundary inputs — lies outside every component. -/
def U5 : Poly := ⟨2, [(2,0),(6,0),(6,4),(2,4)], (100,100), 7⟩

/-- C5 (counterexample): on `[M5, U5]` the polygon `U5` is unmatched, yet
the returned grouped frame holds only the single row of `M5`'s group — no
row with a null cluster id records `U5`, and no unmatched count appears in
either returned value; the exclusion is silent. -/
theorem cca_unmatched_not_recorded_cex :
    matchingIds U5.centroid (hullComponents [M5, U5]) = [] ∧
      (CCA_by_ConvexEnvelopIntersections [M5, U5]).2 =
        [{ id := 1, members := [M5], attr := 10 }] ∧
      (CCA_by_ConvexEnvelopIntersections [M5, U5]).1.map
        (fun c => (c.id, c.attr)) = [(1, some 10)] := by
  decide

/-- C5 (amended): an input polygon whose centroid lies inside no hull-union
component is dropped by the dissolve — it appears in no returned group row —
and is excluded from all aggregated totals, which equal the matched-polygon
totals; no null-id row and no count of unmatched polygons is returned. -/
theorem cca_unmatched_silently_excluded (polys : List Poly)
    (hkeys : (polys.map Poly.key).Nodup)
    (huniq : ∀ q ∈ polys,
      (matchingIds q.centroid (hullComponents polys)).length ≤ 1)
    (q : Poly) (hq : q ∈ polys)
    (hun : matchingIds q.centroid (hullComponents polys) = []) :
    (∀ row ∈ (CCA_by_ConvexEnvelopIntersections polys).2,
      q.key ∉ row.members.map Poly.key) ∧
    ¬ matchedPoly polys q ∧
    ((CCA_by_ConvexEnvelopIntersections polys).1.map
      (fun c => c.attr.getD 0)).sum =
    ((polys.filter (fun p =>
      decide (matchingIds p.centroid (hullComponents polys) ≠ []))).map
      Poly.attr).sum := by
  refine ⟨?_, ?_, cca_sum_aux polys hkeys huniq⟩
  · intro row hrow hkey
    have hrow' : row ∈ dissolve (mergeRows polys (centroidRows polys
        (hullComponents polys))) := hrow
    rw [dissolve] at hrow'
    obtain ⟨i, _, hrec⟩ := List.mem_map.mp hrow'
    have hmem : row.members = ((mergeRows polys (centroidRows polys
        (hullComponents polys))).filter
        (fun r => decide (r.2 = some i))).map Prod.fst := by
      rw [← hrec]
    rw [hmem, List.map_map] at hkey
    obtain ⟨r, hr, hrkey⟩ := List.mem_map.mp hkey
    have hrfilter := List.mem_filter.mp hr
    have hrsome : r.2 = some i := by
      have := hrfilter.2
      simpa using this
    have hrin : r ∈ polys.flatMap (gBlock (hullComponents polys)) := by
      rw [← mergeRows_centroidRows_eq polys (hullComponents polys) hkeys]
      exact hrfilter.1
    obtain ⟨p, hp, hrblock⟩ := List.mem_flatMap.mp hrin
    have hrp : r.1 = p := gBlock_fst (hullComponents polys) p r hrblock
    have hkeyeq : p.key = q.key := by
      rw [← hrp]
      exact hrkey
    have hpq : p = q := List.inj_on_of_nodup_map hkeys hp hq hkeyeq
    rw [hpq] at hrblock
    rw [gBlock, if_pos hun] at hrblock
    simp at hrblock
    subst hrblock
    simp at hrsome
  · rw [matchedPoly, hun]
    simp

/-- C5 (witness for the amended theorem): the two-square input with the
unmatched `U5`. -/
theorem cca_unmatched_silently_excluded_witness :
    (([M5, U5].map Poly.key).Nodup) ∧
      (∀ q ∈ [M5, U5],
        (matchingIds q.centroid (hullComponents [M5, U5])).length ≤ 1) ∧
      U5 ∈ [M5, U5] ∧
      matchingIds U5.centroid (hullComponents [M5, U5]) = [] ∧
      ((∀ row ∈ (CCA_by_ConvexEnvelopIntersections [M5, U5]).2,
        U5.key ∉ row.members.map Poly.key) ∧
      ¬ matchedPoly [M5, U5] U5 ∧
      ((CCA_by_ConvexEnvelopIntersections [M5, U5]).1.map
        (fun c => c.attr.getD 0)).sum =
      (([M5, U5].filter (fun p =>
        decide (matchingIds p.centroid (hullComponents [M5, U5]) ≠ []))).map
        Poly.attr).sum) :=
  ⟨by decide, by decide, by decide, by decide,
    cca_unmatched_silently_excluded [M5, U5] (by decide) (by decide) U5
      (by decide) (by decide)⟩

/-- A dissolve row with a given id exists exactly when the id is a group
key. -/
theorem mem_dissolve_id (rows : List (Poly × Option ℕ)) (j : ℕ) :
    (∃ r ∈ dissolve rows, r.id = j) ↔ j ∈ dissolveIds rows := by
  constructor
  · rintro ⟨r, hr, hj⟩
    rw [dissolve] at hr
    obtain ⟨i, hi, hr⟩ := List.mem_map.mp hr
    have hri : r.id = i := by rw [← hr]
    rw [← hj, hri]
    exact hi
  · intro hj
    rw [dissolve]
    refine ⟨_, List.mem_map_of_mem _ hj, rfl⟩

/-- A joined row with component id `j` exists exactly when some polygon's
centroid lies in component `j`. -/
theorem blocks_snd_iff (cs : List Component) (polys : List Poly) (j : ℕ) :
    (∃ row ∈ polys.flatMap (gBlock cs), row.2 = some j) ↔
      ∃ q ∈ polys, j ∈ matchingIds q.centroid cs := by
  constructor
  · rintro ⟨row, hrow, hj⟩
    obtain ⟨q, hq, hrow⟩ := List.mem_flatMap.mp hrow
    rw [gBlock] at hrow
    split at hrow
    · simp at hrow
      subst hrow
      simp at hj
    · obtain ⟨i, hi, hrow⟩ := List.mem_map.mp hrow
      refine ⟨q, hq, ?_⟩
      rw [← hrow] at hj
      cases hj
      exact hi
  · rintro ⟨q, hq, hj⟩
    refine ⟨(q, some j), List.mem_flatMap.mpr ⟨q, hq, ?_⟩, rfl⟩
    rw [gBlock]
    rw [if_neg (by intro h; rw [h] at hj; cases hj)]
    exact List.mem_map_of_mem _ hj

/-- C6 (counterexample): a single polygon whose centroid the geometry
kernel places outside its own component: the returned natural-cities frame
still contains one entry for that component, with a null aggregated
attribute, although the component matched zero polygons. -/
def U6 : Poly := ⟨1, [(0,0),(4,0),(4,4),(0,4)], (100,100), 5⟩

theorem cca_zero_match_component_kept_cex :
    (CCA_by_ConvexEnvelopIntersections [U6]).1 =
      [{ id := 1, geom := [[(0,0),(4,0),(4,4),(0,4)]], attr := none }] ∧
      matchingIds U6.centroid (hullComponents [U6]) = [] := by
  decide

/-- C6 (amended): the returned natural-cities frame has exactly one entry
per hull-union component — including components that matched zero polygons,
whose aggregated attribute is null; an entry's attribute is non-null
exactly when its component matched at least one input polygon. -/
theorem cca_one_row_per_component (polys : List Poly)
    (hkeys : (polys.map Poly.key).Nodup) :
    ((CCA_by_ConvexEnvelopIntersections polys).1.length =
      (hullComponents polys).length) ∧
    (∀ i (h : i < (CCA_by_ConvexEnvelopIntersections polys).1.length),
      ((CCA_by_ConvexEnvelopIntersections polys).1.get ⟨i, h⟩).id = i + 1 ∧
      (((CCA_by_ConvexEnvelopIntersections polys).1.get ⟨i, h⟩).attr.isSome ↔
        ∃ q ∈ polys,
          (i + 1) ∈ matchingIds q.centroid (hullComponents polys))) := by
  constructor
  · rw [CCA_by_ConvexEnvelopIntersections]
    dsimp only
    rw [naturalCities, List.length_map, List.length_range]
  · intro i h
    have hget : (CCA_by_ConvexEnvelopIntersections polys).1.get ⟨i, h⟩ =
        { id := i + 1, geom := (hullComponents polys).getD i [],
          attr := ((dissolve (mergeRows polys (centroidRows polys
            (hullComponents polys)))).find?
            (fun r => r.id == i + 1)).map GroupRow.attr } := by
      simp only [List.get_eq_getElem, CCA_by_ConvexEnvelopIntersections,
        naturalCities, List.getElem_map, List.getElem_range]
    rw [hget]
    refine ⟨rfl, ?_⟩
    have hiso : ∀ o : Option GroupRow,
        (o.map GroupRow.attr).isSome = o.isSome := by
      intro o
      cases o <;> rfl
    rw [hiso]
    rw [List.find?_isSome]
    constructor
    · rintro ⟨r, hr, hrid⟩
      have hrid' : r.id = i + 1 := by simpa using hrid
      have hj := (mem_dissolve_id _ (i + 1)).mp ⟨r, hr, hrid'⟩
      obtain ⟨row, hrow, hrowj⟩ := (mem_dissolveIds _ (i + 1)).mp hj
      have hrow' : row ∈ polys.flatMap (gBlock (hullComponents polys)) := by
        rw [← mergeRows_centroidRows_eq polys (hullComponents polys) hkeys]
        exact hrow
      exact (blocks_snd_iff (hullComponents polys) polys (i + 1)).mp
        ⟨row, hrow', hrowj⟩
    · intro hq
      obtain ⟨row, hrow, hrowj⟩ :=
        (blocks_snd_iff (hullComponents polys) polys (i + 1)).mpr hq
      have hrow' : row ∈ mergeRows polys (centroidRows polys
          (hullComponents polys)) := by
        rw [mergeRows_centroidRows_eq polys (hullComponents polys) hkeys]
        exact hrow
      have hj := (mem_dissolveIds _ (i + 1)).mpr ⟨row, hrow', hrowj⟩
      obtain ⟨r, hr, hrid⟩ := (mem_dissolve_id _ (i + 1)).mpr hj
      exact ⟨r, hr, by simpa using hrid⟩

/-- C6 (witness for the amended theorem): the three-square input. -/
theorem cca_one_row_per_component_witness :
    ((polysW.map Poly.key).Nodup) ∧
      (((CCA_by_ConvexEnvelopIntersections polysW).1.length =
        (hullComponents polysW).length) ∧
      (∀ i (h : i < (CCA_by_ConvexEnvelopIntersections polysW).1.length),
        ((CCA_by_ConvexEnvelopIntersections polysW).1.get ⟨i, h⟩).id = i + 1 ∧
        (((CCA_by_ConvexEnvelopIntersections polysW).1.get
            ⟨i, h⟩).attr.isSome ↔
          ∃ q ∈ polysW,
            (i + 1) ∈ matchingIds q.centroid (hullComponents polysW)))) :=
  ⟨by decide, cca_one_row_per_component polysW (by decide)⟩

/-! ### Idempotence of the clustering -/

/-- Idempotence counterexample input: two long rectangles forming an
L-shape whose convex hulls overlap, plus a small square sitting strictly
inside the notch of the L but disjoint from it. -/
def polys7 : List Poly :=
  [⟨1, [(0,0),(20,0),(20,4),(0,4)], (10,2), 3⟩,
   ⟨2, [(0,0),(4,0),(4,20),(0,20)], (2,10), 4⟩,
   ⟨3, [(8,8),(10,8),(10,10),(8,10)], (9,9), 5⟩]

/-- The natural cities of `polys7`, fed back as single input polygons: the
key is the city id, the vertex list is the multi-part boundary's point set
(whose convex hull is the hull of the city's geometry), the centroid is an
interior point of the city, and the attribute is the aggregated total. -/
def refed7 : List Poly :=
  (CCA_by_ConvexEnvelopIntersections polys7).1.map (fun c =>
    { key := c.id, verts := c.geom.flatten,
      centroid := if c.id = 1 then (9, 9) else (2, 2),
      attr := c.attr.getD 0 })

/-- C7 (counterexample): clustering `polys7` yields two natural cities (the
L-shaped merger of the rectangles, and the notch square), but re-clustering
those two natural cities yields a single one: the L-shaped city's convex
hull swallows the notch square, so the two hulls intersect and merge. -/
theorem cca_not_idempotent_cex :
    (CCA_by_ConvexEnvelopIntersections polys7).1.length = 2 ∧
      (CCA_by_ConvexEnvelopIntersections refed7).1.length = 1 := by
  decide

theorem addHull_no_intersect (cs : List Component) (h : List Pt)
    (hc : ∀ c ∈ cs, compIntersects h c = false) :
    addHull cs h = [h] :: cs := by
  rw [addHull, List.partition_eq_filter_filter]
  dsimp only
  rw [List.filter_eq_nil_iff.mpr (fun c hcc => by simp [hc c hcc]),
    List.filter_eq_self.mpr (fun c hcc => by simp [hc c hcc])]
  rfl

/-- Folding pairwise non-intersecting hulls into the union decomposition
produces one singleton component per hull. -/
theorem foldl_addHull_disjoint (hs : List (List Pt)) :
    ∀ acc : List Component,
    (∀ h ∈ hs, ∀ c ∈ acc, compIntersects h c = false) →
    hs.Pairwise (fun g h => hullsIntersect h g = false) →
    hs.foldl addHull acc = (hs.map (fun h => [h])).reverse ++ acc := by
  induction hs with
  | nil =>
      intro acc _ _
      rfl
  | cons h t ih =>
      intro acc hacc hpair
      rw [List.pairwise_cons] at hpair
      rw [List.foldl_cons,
        addHull_no_intersect acc h (hacc h (List.mem_cons_self h t))]
      have hcond : ∀ h' ∈ t, ∀ c ∈ [h] :: acc,
          compIntersects h' c = false := by
        intro h' hh' c hc
        rcases List.mem_cons.mp hc with rfl | hcacc
        · simp [compIntersects, hpair.1 h' hh']
        · exact hacc h' (List.mem_cons_of_mem h hh') c hcacc
      rw [ih ([h] :: acc) hcond hpair.2]
      simp

theorem map_range_getD (l : List Component) :
    (List.range l.length).map (fun i => l.getD i []) = l := by
  apply List.ext_getElem
  · rw [List.length_map, List.length_range]
  · intro i h1 h2
    rw [List.getElem_map, List.getElem_range]
    exact List.getD_eq_getElem l [] h2

/-- C7 (amended): re-clustering the natural cities is not idempotent for
every input — the counterexample above merges two cities into one.  What
does hold is the sufficient condition: when the convex hulls of the inputs
are pairwise non-intersecting, clustering performs no merging at all — one
natural city per input polygon, each city's geometry being that polygon's
hull alone — so a clustering output whose cities' hulls are pairwise
non-intersecting re-clusters to itself city-for-city. -/
theorem cca_disjoint_hulls_no_merge (polys : List Poly)
    (hpair : (polys.map Poly.verts).Pairwise
      (fun g h => hullsIntersect h g = false)) :
    (CCA_by_ConvexEnvelopIntersections polys).1.length = polys.length ∧
    (CCA_by_ConvexEnvelopIntersections polys).1.map CityRow.geom =
      ((polys.map Poly.verts).map (fun h => [h])).reverse := by
  have hcs : hullComponents polys =
      ((polys.map Poly.verts).map (fun h => [h])).reverse := by
    rw [hullComponents,
      foldl_addHull_disjoint _ [] (fun h _ c hc => by cases hc) hpair,
      List.append_nil]
  constructor
  · rw [CCA_by_ConvexEnvelopIntersections]
    dsimp only
    rw [naturalCities, List.length_map, List.length_range, hcs]
    rw [List.length_reverse, List.length_map, List.length_map]
  · rw [CCA_by_ConvexEnvelopIntersections]
    dsimp only
    rw [naturalCities, List.map_map]
    have hcomp : (CityRow.geom ∘ fun i =>
        { id := i + 1, geom := (hullComponents polys).getD i [],
          attr := ((dissolve (mergeRows polys (centroidRows polys
            (hullComponents polys)))).find?
            (fun r => r.id == i + 1)).map GroupRow.attr }) =
        fun i => (hullComponents polys).getD i [] := rfl
    rw [hcomp, map_range_getD, hcs]

/-- C7 (witness for the amended theorem): two far-apart squares; their
hulls do not intersect, and clustering returns one city per square. -/
def polysD : List Poly :=
  [⟨1, [(0,0),(4,0),(4,4),(0,4)], (2,2), 3⟩,
   ⟨2, [(100,100),(104,100),(104,104),(100,104)], (102,102), 4⟩]

theorem cca_disjoint_hulls_no_merge_witness :
    ((polysD.map Poly.verts).Pairwise
      (fun g h => hullsIntersect h g = false)) ∧
      ((CCA_by_ConvexEnvelopIntersections polysD).1.length =
        polysD.length ∧
      (CCA_by_ConvexEnvelopIntersections polysD).1.map CityRow.geom =
        ((polysD.map Poly.verts).map (fun h => [h])).reverse) :=
  ⟨by decide, cca_disjoint_hulls_no_merge polysD (by decide)⟩

end NaturalCities
